import Mathlib

/-!
Verification of the lziprecover data-recovery tool (src/lzip/lziprecover.cc)
against its natural-language specification.

The development shallowly embeds the recovery engines of the program:

* `Block` and `Block.shift`            — lziprecover.cc lines 79-94
* `ipow`                               — lines 367-376
* `verify_header`, `verify_single_member` — lines 177-225
* the repair search loop               — `repair_file`, lines 498-574
* the copy-and-diff scanner            — `copy_and_diff_file`, lines 262-324
* the merge variation search           — `merge_files`, lines 379-495
* the split boundary scanner           — `do_split_file`, lines 588-669

Machine integers: `pos_`/`size_` are C `long long`; they are embedded as
`Int`.  File bytes are embedded as `Fin 256` (C `uint8_t`, whose `++`
wraps modulo 256, which is exactly `Fin 256` addition).  Sizes, indices
and the loop counters (C `int`, always nonnegative here) are embedded as
`Nat`; every place where C performs a division or modulus on nonnegative
ints coincides with `Nat` division/modulus.
-/

/-- `INT_MAX` of the 32-bit C `int` used by `ipow` and the merge
overflow guard. -/
def INT_MAX : Nat := 2 ^ 31 - 1

/-- The size in bytes of a lzip member header (`File_header::size`).
Modelled from the spec: `File_header` lives in the repository's missing
`lzip.h`; the spec fixes the header layout as a 4-byte magic string, a
1-byte version and a 1-byte coded dictionary size, hence 6 bytes. -/
def File_header_size : Nat := 6

/-- A contiguous byte range of the image, lziprecover.cc lines 79-94.
`pos_` and `size_` are C `long long`, embedded as `Int`. -/
structure Block where
  pos : Int
  size : Int
deriving DecidableEq, Repr

/-- `Block::end()`, line 89: `pos_ + size_`. -/
def Block.end' (b : Block) : Int := b.pos + b.size

/-- `Block::shift`, line 93: `++size_; ++b.pos_; --b.size_;` acting on a
pair of blocks; the first component is the mutated `this`, the second the
mutated argument. -/
def Block.shift (a b : Block) : Block × Block :=
  (⟨a.pos, a.size + 1⟩, ⟨b.pos + 1, b.size - 1⟩)

/-- `ipow`'s accumulation loop, lines 369-374: starting from `result`,
multiply by `base` `expo` times, saturating at `INT_MAX` (with an
immediate `break`) as soon as the unsigned guard
`INT_MAX / base >= result` fails. -/
def ipowAux (base : Nat) : Nat → Nat → Nat
  | result, 0 => result
  | result, expo + 1 =>
    if result ≤ INT_MAX / base then ipowAux base (result * base) expo
    else INT_MAX

/-- `ipow( base, exponent )`, lines 367-376. -/
def ipow (base expo : Nat) : Nat := ipowAux base 1 expo

/-- The variation-count data computed by `merge_files` lines 439-454,
as a function of `n` (number of input files), `k` (number of scanner
blocks) and `s` (the size of the single block when `k = 1`):
`shifts = single_block ? B[0].size - 1 : 1` and, after the single-block
split pushes a second block, `base_variations = ipow( n, |B| )` where
`|B|` is `2` in the single-block case and `k` otherwise. -/
def merge_shifts (k s : Nat) : Nat := if k = 1 then s - 1 else 1

/-- `base_variations` of `merge_files` line 453 (block count after the
single-block split at lines 446-451). -/
def base_variations (n k : Nat) : Nat := ipow n (if k = 1 then 2 else k)

/-- The overflow guard of `merge_files` lines 439-443, in its passing
form: `ipow(n,k) < INT_MAX` and, in the single-block case,
`ipow(n,2) < INT_MAX / s`. -/
def merge_guard (n k s : Nat) : Prop :=
  ipow n k < INT_MAX ∧ (k = 1 → ipow n 2 < INT_MAX / s)

instance (n k s : Nat) : Decidable (merge_guard n k s) := by
  unfold merge_guard; infer_instance

/-- The 4-byte lzip magic string "LZIP".  Modelled from the spec: the
`magic_string` constant lives in the repository's missing `lzip.h`; the
spec names it "the 4-byte prefix identifying an lzip member". -/
def magic_string : List (Fin 256) := [0x4C, 0x5A, 0x49, 0x50]

/-- `verify_header`, lziprecover.cc lines 177-197, as a boolean: the
magic matches and the version byte is 1 (version 0 and any other version
are rejected, with distinct diagnostics not modelled here).
`File_header::verify_magic` and `File_header::version` live in the
missing `lzip.h`; modelled from the spec, the magic is the first 4 bytes
and the version is the following byte. -/
def verify_header (hdr : List (Fin 256)) : Bool :=
  hdr.take 4 == magic_string && hdr.getD 4 0 == 1

/-- `File_trailer::size()` for version-1 members.  Modelled from the
spec: the trailer is a fixed-size record (CRC32, data size and the
8-byte member size) of 20 bytes; in this file it is only used for the
can-the-trailer-be-read test of `verify_single_member`, which is dead
for the file sizes (≥ 36) all call sites guarantee. -/
def File_trailer_size : Nat := 20

/-- `File_trailer::member_size()` of the trailer stored at the end of
`file`: the 8-byte little-endian integer occupying the last 8 bytes.
Modelled from the spec ("an 8-byte little-endian member size" at the
trailer's tail); the field layout lives in the missing `lzip.h`.
The C value is a `long long`; raw values at or above `2^63` read back
negative there, but every branch of `verify_single_member` below sends
both the negative reading and the large `Nat` reading to the same
result, so the raw `Nat` value is used. -/
def member_size (file : List (Fin 256)) : Nat :=
  (List.range 8).foldl
    (fun acc i => acc + (file.getD (file.length - 8 + i) 0).val * 256 ^ i) 0

/-- Outcome of `verify_single_member`: `ok` for `return true`, the other
constructors name the diagnostic emitted before `return false`. -/
inductive VerifyResult where
  | readError
  | badHeader
  | multiMember
  | corruptTrailer
  | ok
deriving DecidableEq, Repr

/-- `verify_single_member( fd, file_size )`, lines 200-225, on the byte
image of the descriptor.  Reads and validates the header; reads the
trailer's member-size field `m`; succeeds iff `m` equals the file size.
On `m ≠ S` it reports "more than 1 member" exactly when `m < S` and a
valid header can be read at offset `S - m` (the `lseek > 0` test is
`S - m > 0`, i.e. `m < S` again; `readblock` delivers the full 6 header
bytes iff `S - m + 6 ≤ S`, i.e. `6 ≤ m`), and "member size … corrupt"
otherwise. -/
def verify_single_member (file : List (Fin 256)) : VerifyResult :=
  if file.length < File_header_size then .readError
  else if ¬ verify_header (file.take File_header_size) then .badHeader
  else if file.length < File_trailer_size then .readError
  else
    let S := file.length
    let m := member_size file
    if m = S then .ok
    else if m < S ∧ File_header_size ≤ m ∧
        verify_header ((file.drop (S - m)).take File_header_size) = true then .multiMember
    else .corruptTrailer

/-- One run of the repair inner loop, lines 542-551, with `i` trials
remaining: `byte` is the local `uint8_t byte` variable; each trial
increments it (`Fin 256` addition is exactly the mod-256 wrap of
`++byte`), writes it into the image at `pos` and runs the trial-decode
oracle on the whole image.  Returns the successful image if a trial
succeeded, together with the image and the `byte` variable as the loop
left them. -/
def repair_trials (oracle : List (Fin 256) → Bool) (pos : Nat) :
    List (Fin 256) → Fin 256 → Nat → Option (List (Fin 256)) × List (Fin 256) × Fin 256
  | img, byte, 0 => (none, img, byte)
  | img, byte, i + 1 =>
    let b := byte + 1
    let img2 := img.set pos b
    if oracle img2 then (some img2, img2, b) else repair_trials oracle pos img2 b i

/-- The body of the repair position loop for one position `pos`, lines
538-556: read the byte at `pos`, run the 255 trials; if none succeeds,
increment once more and write the byte back (lines 553-556), which
restores the original byte since 256 increments of a `uint8_t` cancel. -/
def repair_at_pos (oracle : List (Fin 256) → Bool) (img : List (Fin 256)) (pos : Nat) :
    Option (List (Fin 256)) × List (Fin 256) :=
  match repair_trials oracle pos img (img.getD pos 0) 255 with
  | (some out, _, _) => (some out, out)
  | (none, img2, b) => (none, img2.set pos (b + 1))

/-- The repair position loop, lines 531-557: try `pos`, then `pos - 1`,
…; `count` is the number of positions still to try after the current
one (`pos - min_pos` at entry), mirroring `for( pos = failure_pos;
pos >= min_pos; --pos )`.  The image passed down after a failed position
is the one the restoring write left behind. -/
def repair_search (oracle : List (Fin 256) → Bool) :
    Nat → List (Fin 256) → Nat → Option (Nat × List (Fin 256))
  | count, img, pos =>
    match repair_at_pos oracle img pos with
    | (some out, _) => some (pos, out)
    | (none, img2) =>
      match count with
      | 0 => none
      | c + 1 => repair_search oracle c img2 (pos - 1)

/-- `repair_file`, lines 498-574, from the point where the initial trial
decode of the input has failed and reported `failure_pos` (the exit-0
path with no output file, lines 512-517, is upstream of this).  `img` is
the byte image of the input, which line 526 copies to the output file;
the model clamps the failure position (line 518), rejects positions
inside the header (lines 519-520, the exit-2 path, `none` here) and runs
the search loop over `[max(File_header_size, f - 1000), f]` (lines
528-557).  `some (pos, out)` is the exit-0 path with output image `out`;
`none` is the exit-2 path (output removed, line 570). -/
def repair_file (oracle : List (Fin 256) → Bool) (img : List (Fin 256))
    (failure_pos : Nat) : Option (Nat × List (Fin 256)) :=
  let isize := img.length
  if isize < 36 then none
  else
    let f := if isize - 8 ≤ failure_pos then isize - 8 - 1 else failure_pos
    if f < File_header_size then none
    else repair_search oracle (f - max File_header_size (f - 1000)) img f

/-- Whether some input other than source 0 disagrees with source 0 at
byte position `i` — the inner `j`-loops of `copy_and_diff_file` at lines
291-293 and 299-301 (`buffer_vector[0][i] != buffer_vector[j][i]` for
some `j ≥ 1`). -/
def diffAt (src0 : List (Fin 256)) (rest : List (List (Fin 256))) (i : Nat) : Bool :=
  rest.any fun s => s.getD i 0 != src0.getD i 0

/-- The per-byte disagreement scanner of `copy_and_diff_file`, lines
287-311, for an input delivered by a single `readblock` (`readblock`
loops until the request is filled, so any input shorter than the 64 KiB
buffer arrives in one read and `partial_pos` stays 0; relative and
absolute positions then coincide).

State: `i` is the loop index, `bpos` is `b.pos()` (0 is the "no open
block" sentinel of the two `while` conditions), `eq` is `equal_bytes`.
One call step processes position `i`:
* `bpos = 0` (the first `while`, lines 289-295): if some source
  disagrees at `i` then `b.pos( partial_pos + i )` — faithfully
  `bpos := i`, which at `i = 0` leaves the sentinel unchanged;
* otherwise (the second `while`, lines 296-310): `equal_bytes` is
  incremented then zeroed on disagreement; on reaching 2 the block
  `⟨bpos, i - (equal_bytes - 1) - bpos⟩` is pushed and both state
  variables reset.  In that close case the next examined position is
  `i + 2`, not `i + 1`: the `++i` of the `while` body is followed by the
  `++i` of the enclosing `for` once both `while` conditions fail, so the
  byte right after a close is never examined.

Returns the pushed blocks in order and the final `b.pos()`. -/
def scanAux (dis : Nat → Bool) (rd : Nat) : Nat → Nat → Nat → Nat → List Block × Nat
  | 0, _, bpos, _ => ([], bpos)
  | fuel + 1, i, bpos, eq =>
    if i < rd then
      if bpos = 0 then
        scanAux dis rd fuel (i + 1) (if dis i then i else 0) eq
      else if dis i then
        scanAux dis rd fuel (i + 1) bpos 0
      else if 2 ≤ eq + 1 then
        let closed : Block := ⟨(bpos : Int), (i : Int) - ((eq : Int) + 1 - 1) - (bpos : Int)⟩
        let res := scanAux dis rd fuel (i + 2) 0 0
        (closed :: res.1, res.2)
      else
        scanAux dis rd fuel (i + 1) bpos (eq + 1)
    else ([], bpos)

/-- `copy_and_diff_file`, lines 262-324, in its single-read instance
(see `scanAux`): the block vector recorded while the bytes of source 0
are copied verbatim to the output (line 284), with the end-of-stream
flush of a still-open block (lines 316-320,
`b.size( partial_pos - b.pos() )`).  Each scanner step consumes at least
one position, so `rd` units of fuel cover the whole input. -/
def copy_and_diff_file (src0 : List (Fin 256)) (rest : List (List (Fin 256))) :
    List Block :=
  let rd := src0.length
  let res := scanAux (diffAt src0 rest) rd rd 0 0 0
  if 0 < res.2 then res.1 ++ [⟨(res.2 : Int), (rd : Int) - (res.2 : Int)⟩] else res.1

/-- The between-blocks guarantee of the scanner: a witness pair of
consecutive positions `p`, `p + 1`, lying at or after the end of block
`a` and strictly before the start of block `b`, at which every source
agrees with source 0. -/
def scanGap (dis : Nat → Bool) (a b : Block) : Prop :=
  ∃ p : Nat, a.end' ≤ (p : Int) ∧ (p : Int) + 1 < b.pos ∧
    dis p = false ∧ dis (p + 1) = false

/-- `scanAux` together with the end-of-stream flush of lines 316-320:
the full block vector produced from an intermediate scanner state. -/
def scanFlush (dis : Nat → Bool) (rd fuel i bpos eq : Nat) : List Block :=
  (scanAux dis rd fuel i bpos eq).1 ++
    (if 0 < (scanAux dis rd fuel i bpos eq).2 then
      [⟨((scanAux dis rd fuel i bpos eq).2 : Int),
        (rd : Int) - ((scanAux dis rd fuel i bpos eq).2 : Int)⟩]
    else [])

/-- The `lseek`/`lseek`/`copy_file` sequence of the merge loop, lines
468-470: overwrite `size` bytes of `out` at offset `pos` with the bytes
of `src` at the same offset (both descriptors are seeked to
`block_vector[i].pos()` first). -/
def copyBlock (src out : List (Fin 256)) (pos size : Nat) : List (Fin 256) :=
  (List.range out.length).map fun q =>
    if pos ≤ q ∧ q < pos + size then src.getD q 0 else out.getD q 0

/-- The per-variation copy of `merge_files`, lines 463-472: `tmp = var`,
and for each block in order, copy it into the output image from input
number `tmp % filenames.size()`, then `tmp /= filenames.size()`. -/
def applyVariation (ins : List (List (Fin 256))) :
    List Block → Nat → List (Fin 256) → List (Fin 256)
  | [], _, out => out
  | b :: bs, tmp, out =>
    let src := ins.getD (tmp % ins.length) []
    applyVariation ins bs (tmp / ins.length) (copyBlock src out b.pos.toNat b.size.toNat)

/-- `block_vector[0].shift( block_vector[1] )`, line 477, on the block
vector. -/
def shift01 : List Block → List Block
  | a :: b :: rest => (Block.shift a b).1 :: (Block.shift a b).2 :: rest
  | l => l

/-- The merge variation loop, lines 455-478: `for( var = 1;
var <= variations; ++var )` applies the variation to the output image,
runs the trial-decode oracle on it, and on failure shifts the block
boundary whenever `var % base_variations == 0`.  `fuel` is
`variations - var + 1`, the number of iterations still to run, so the
loop started at `var = 1` carries `fuel = variations`.  `some (var,
out)` is the `done = true` exit with the successful image. -/
def mergeLoop (oracle : List (Fin 256) → Bool) (ins : List (List (Fin 256)))
    (base : Nat) :
    Nat → List Block → List (Fin 256) → Nat → Option (Nat × List (Fin 256))
  | 0, _, _, _ => none
  | fuel + 1, blocks, out, var =>
    let out2 := applyVariation ins blocks var out
    if oracle out2 then some (var, out2)
    else mergeLoop oracle ins base fuel
      (if var % base = 0 then shift01 blocks else blocks) out2 (var + 1)

/-- `merge_files`, lines 379-495, on the byte images of the input files;
`oracle` is `try_decompress`.  Result: the exit code paired with whether
an output file is left on disk (`open_outstream` creates it at line 419;
the failed-search path removes it at line 491).  Mirrors the pipeline:
equal-sizes check (388-401), minimum size (402-403),
`verify_single_member` on every input (404-406), the clean-input early
exit before the output is created (410-417), the diff scan (427), the
no-blocks and single-damaged-byte rejections (429-437), the overflow
guard (439-443), the single-block split and `shifts` (445-451), and the
variation loop (453-478) started at `var = 1` on the output image, which
`copy_and_diff_file` left equal to source 0. -/
def merge_files (oracle : List (Fin 256) → Bool) (ins : List (List (Fin 256))) :
    Nat × Bool :=
  let isize := (ins.getD 0 []).length
  if ins.any fun f => f.length ≠ isize then (1, false)
  else if isize < 36 then (2, false)
  else if ins.any fun f => verify_single_member f ≠ .ok then (2, false)
  else if ins.any oracle then (0, false)
  else
    let src0 := ins.getD 0 []
    let blocks := copy_and_diff_file src0 (ins.drop 1)
    let b0 := blocks.getD 0 ⟨0, 0⟩
    if blocks.length = 0 then (1, true)
    else if blocks.length = 1 ∧ b0.size < 2 then (1, true)
    else if ¬ merge_guard ins.length blocks.length b0.size.toNat then (1, true)
    else
      let single := blocks.length = 1
      let shifts := if single then (b0.size - 1).toNat else 1
      let blocks2 := if single then [⟨b0.pos, 1⟩, ⟨b0.pos + 1, b0.size - 1⟩] else blocks
      let base := ipow ins.length blocks2.length
      match mergeLoop oracle ins base (base * shifts - 2) blocks2 src0 1 with
      | some _ => (0, true)
      | none => (2, false)

/-- The candidate member size examined by the split scanner at absolute
position `p`, lines 626-628: `for( i = 1; i <= 8; ++i ) { member_size
<<= 8; member_size += base_buffer[tsize+newpos-i]; }`, i.e. the 8-byte
little-endian integer stored in positions `p - 8 … p - 1`.  (For `p < 8`
in the first 64 KiB window the C code reads bytes of the never-written
`base_buffer` prefix; those indeterminate bytes are modelled as the
truncated-index reads below — the concatenation theorem proved about the
scanner holds whatever this function returns.) -/
def msizeAt (input : List (Fin 256)) (p : Nat) : Nat :=
  (List.range 8).foldl (fun ms i => ms * 256 + (input.getD (p - (i + 1)) 0).val) 0

/-- The member-boundary test of `do_split_file` at absolute position
`p`, lines 620-629: the four bytes at `p` match the magic string, and
the bytes accumulated in the current member —
`partial_member_size + newpos - pos`, which is exactly `p - lastB` where
`lastB` is the absolute position of the last confirmed boundary — equal
the candidate member size preceding `p`. -/
def boundaryAt (input : List (Fin 256)) (lastB p : Nat) : Bool :=
  input.getD p 0 == magic_string.getD 0 0 &&
  input.getD (p + 1) 0 == magic_string.getD 1 0 &&
  input.getD (p + 2) 0 == magic_string.getD 2 0 &&
  input.getD (p + 3) 0 == magic_string.getD 3 0 &&
  (p - lastB == msizeAt input p)

/-- The split scanner of `do_split_file`, lines 616-664, in absolute
positions.  The code slides a `trailer + 64 KiB + header` window over
the input; window `k` starts at absolute `W = k * 65536` and its scan
examines relative `newpos ∈ [1, size]`, i.e. absolute `W + 1 … W +
size`; successive windows abut (`memcpy` carries the last
`trailer + header` bytes, the next `readblock` refills behind them), so
across the whole run every absolute position `1 … L - header` is
examined exactly once, in order — `fuel` counts the positions still to
examine.  A confirmed boundary at `p` writes the pending bytes
`[lastB, p)` to the current output file and opens the next one (lines
630-642); the partial flushes at a window edge (lines 645-658) write
prefixes of the same pending range to the same file, so each output file
holds exactly its `[boundary, next boundary)` range.  When the
positions are exhausted the end-of-stream branch (lines 645-650) writes
the rest, `[lastB, L)`. -/
def splitScan (input : List (Fin 256)) :
    Nat → Nat → Nat → List (List (Fin 256)) → List (List (Fin 256))
  | 0, _, lastB, outs => outs ++ [input.drop lastB]
  | fuel + 1, p, lastB, outs =>
    if boundaryAt input lastB p then
      splitScan input fuel (p + 1) p (outs ++ [(input.drop lastB).take (p - lastB)])
    else splitScan input fuel (p + 1) lastB outs

/-- `do_split_file`, lines 588-669, restricted to its successful
(exit 0) path: the list of output-file images `rec00001…`, `rec00002…`,
… in order.  The scan examines absolute positions `1 … L - header_size`
(the last window's `size` satisfies `W + size = L - hsize`), starting
with `pos = 0` and an empty first output. -/
def do_split_file (input : List (Fin 256)) : List (List (Fin 256)) :=
  splitScan input (input.length - File_header_size) 1 0 []

-- Concrete instances used to evaluate the functions above on explicit
-- inputs.

/-- A well-formed 36-byte single-member image: magic "LZIP", version 1,
dictionary byte, 22 payload/trailer bytes, and a little-endian
member-size field equal to 36 in the last 8 bytes. -/
def fileC : List (Fin 256) :=
  [0x4C, 0x5A, 0x49, 0x50, 1, 0] ++ List.replicate 22 0 ++ [36, 0, 0, 0, 0, 0, 0, 0]

/-- An all-zero 36-byte image. -/
def imgC : List (Fin 256) := List.replicate 36 0

/-- A trial-decode stand-in that accepts exactly the images whose byte 6
is 5. -/
def oracleC : List (Fin 256) → Bool := fun im => im.getD 6 0 == 5

/-- A trial-decode stand-in that rejects every image. -/
def oracleF : List (Fin 256) → Bool := fun _ => false

/-- Two length-4 sources that disagree exactly at position 0. -/
def srcA : List (Fin 256) := [0, 5, 5, 5]

/-- See `srcA`. -/
def srcB : List (Fin 256) := [1, 5, 5, 5]

/-- Two length-4 sources that disagree exactly at position 1. -/
def srcC : List (Fin 256) := [0, 0, 5, 5]

/-- See `srcC`. -/
def srcD : List (Fin 256) := [0, 1, 5, 5]

/-- A pair of length-4 input images for the merge loop. -/
def insM : List (List (Fin 256)) := [[0, 0, 0, 0], [9, 9, 9, 9]]

/-- Two disjoint one-byte blocks for the merge loop. -/
def blocksM : List Block := [⟨0, 1⟩, ⟨2, 1⟩]

/-- A trial-decode stand-in that accepts exactly the images whose byte 0
is 9. -/
def oracleM : List (Fin 256) → Bool := fun im => im.getD 0 0 == 9

-- Basic facts about `ipowAux`.

theorem ipowAux_le_INT_MAX (base : Nat) :
    ∀ expo result, result ≤ INT_MAX → ipowAux base result expo ≤ INT_MAX := by
  intro expo
  induction expo with
  | zero => intro result h; simpa [ipowAux] using h
  | succ e ih =>
    intro result h
    unfold ipowAux
    by_cases hg : result ≤ INT_MAX / base
    · simp only [hg, if_true]
      exact ih _ (Nat.le_trans (Nat.mul_le_mul_right base hg)
        (Nat.div_mul_le_self INT_MAX base))
    · simp [hg]

theorem ipow_le_INT_MAX (base expo : Nat) : ipow base expo ≤ INT_MAX := by
  apply ipowAux_le_INT_MAX base
  unfold INT_MAX; omega

-- List helpers: `List.set` at the read-back value, and reads of a
-- `List.set` image.

theorem set_getD_self {α : Type} (l : List α) (pos : Nat) (d : α)
    (h : pos < l.length) : l.set pos (l.getD pos d) = l := by
  apply List.ext_getElem?
  intro j
  rw [List.getElem?_set]
  by_cases hij : pos = j
  · subst hij
    simp [List.getD_eq_getElem?_getD, List.getElem?_eq_getElem h, h]
  · simp [hij]

theorem getD_set_self {α : Type} (l : List α) (p : Nat) (v d : α)
    (h : p < l.length) : (l.set p v).getD p d = v := by
  simp [List.getD_eq_getElem?_getD, List.getElem?_set, h]

theorem getD_set_ne {α : Type} (l : List α) (p q : Nat) (v d : α)
    (h : p ≠ q) : (l.set p v).getD q d = l.getD q d := by
  simp [List.getD_eq_getElem?_getD, List.getElem?_set, h]

/-- C6: for adjacent blocks `(a, b)` with `a.end == b.pos`, one
application of `shift` increases `a.size` by 1, increases `b.pos` by 1,
decreases `b.size` by 1, leaves `a.pos` unchanged, and therefore
preserves both the adjacency `a.end == b.pos` and the sum
`a.size + b.size`. -/
theorem shift_adjacent_blocks (a b : Block) (h : a.end' = b.pos) :
    (a.shift b).1.size = a.size + 1 ∧ (a.shift b).2.pos = b.pos + 1 ∧
    (a.shift b).2.size = b.size - 1 ∧ (a.shift b).1.pos = a.pos ∧
    (a.shift b).1.end' = (a.shift b).2.pos ∧
    (a.shift b).1.size + (a.shift b).2.size = a.size + b.size := by
  refine ⟨rfl, rfl, rfl, rfl, ?_, ?_⟩
  · simp only [Block.shift, Block.end'] at h ⊢
    omega
  · simp only [Block.shift]
    ring

theorem shift_adjacent_blocks_witness :
    (Block.mk 0 2).end' = (Block.mk 2 3).pos ∧
    ((Block.mk 0 2).shift (Block.mk 2 3)).1.size = (Block.mk 0 2).size + 1 ∧
    ((Block.mk 0 2).shift (Block.mk 2 3)).2.pos = (Block.mk 2 3).pos + 1 ∧
    ((Block.mk 0 2).shift (Block.mk 2 3)).2.size = (Block.mk 2 3).size - 1 ∧
    ((Block.mk 0 2).shift (Block.mk 2 3)).1.pos = (Block.mk 0 2).pos ∧
    ((Block.mk 0 2).shift (Block.mk 2 3)).1.end' =
      ((Block.mk 0 2).shift (Block.mk 2 3)).2.pos ∧
    ((Block.mk 0 2).shift (Block.mk 2 3)).1.size +
        ((Block.mk 0 2).shift (Block.mk 2 3)).2.size =
      (Block.mk 0 2).size + (Block.mk 2 3).size :=
  ⟨by decide, shift_adjacent_blocks (Block.mk 0 2) (Block.mk 2 3) (by decide)⟩

/-- C10: whenever the overflow guard of `merge_files` passes
(`ipow(n, k) < INT_MAX`, and in the single-block case additionally
`ipow(n, 2) < INT_MAX / s` for the block size `s`), the product
`base_variations * shifts` computed afterwards is at most `INT_MAX`, so
`variations = base_variations * shifts - 2` incurs no signed 32-bit
overflow, for every `n ≥ 2` and non-empty block vector (`k ≥ 1`). -/
theorem merge_guard_no_overflow (n k s : Nat) (_hn : 2 ≤ n) (hk : 1 ≤ k)
    (hg : merge_guard n k s) :
    base_variations n k * merge_shifts k s ≤ INT_MAX := by
  rcases hg with ⟨h1, h2⟩
  by_cases hk1 : k = 1
  · subst hk1
    have hp : ipow n 2 < INT_MAX / s := h2 rfl
    simp only [base_variations, merge_shifts, if_pos rfl]
    rcases Nat.eq_zero_or_pos s with hs | hs
    · subst hs; simp at hp
    · have h3 : ipow n 2 + 1 ≤ INT_MAX / s := hp
      have h4 : (ipow n 2 + 1) * s ≤ INT_MAX := (Nat.le_div_iff_mul_le hs).1 h3
      have h5 : ipow n 2 * (s - 1) ≤ (ipow n 2 + 1) * s :=
        Nat.mul_le_mul (Nat.le_succ _) (Nat.sub_le s 1)
      exact le_trans h5 h4
  · simp only [base_variations, merge_shifts, if_neg hk1]
    rw [Nat.mul_one]
    exact Nat.le_of_lt h1

theorem merge_guard_no_overflow_witness :
    2 ≤ 2 ∧ 1 ≤ 1 ∧ merge_guard 2 1 3 ∧
    base_variations 2 1 * merge_shifts 1 3 ≤ INT_MAX :=
  ⟨le_refl 2, le_refl 1, by decide,
    merge_guard_no_overflow 2 1 3 (le_refl 2) (le_refl 1) (by decide)⟩

/-- C8: for a descriptor image of length `S ≥ 36`, single-member
verification succeeds iff the header validates and the trailer's
member-size field `m` equals `S`; when the header validates and
`m ≠ S` it fails, reporting the multi-member diagnostic exactly when
`m < S` and a valid header is readable at offset `S - m` from the start
(`m < S` makes the `lseek` land strictly past 0, and the full 6 header
bytes are readable there iff `6 ≤ m`), and the corrupt-trailer
diagnostic otherwise. -/
theorem verify_single_member_characterization (file : List (Fin 256))
    (h36 : 36 ≤ file.length) :
    (verify_single_member file = .ok ↔
      (verify_header (file.take File_header_size) = true ∧
       member_size file = file.length)) ∧
    (verify_header (file.take File_header_size) = true →
      member_size file ≠ file.length →
      verify_single_member file ≠ .ok ∧
      (verify_single_member file = .multiMember ↔
        (member_size file < file.length ∧
         File_header_size ≤ member_size file ∧
         verify_header ((file.drop (file.length - member_size file)).take
           File_header_size) = true)) ∧
      (verify_single_member file = .corruptTrailer ↔
        ¬ (member_size file < file.length ∧
           File_header_size ≤ member_size file ∧
           verify_header ((file.drop (file.length - member_size file)).take
             File_header_size) = true))) := by
  have hh : ¬ file.length < File_header_size := by unfold File_header_size; omega
  have ht : ¬ file.length < File_trailer_size := by unfold File_trailer_size; omega
  unfold verify_single_member
  rw [if_neg hh]
  by_cases hv : verify_header (file.take File_header_size) = true
  · rw [if_neg (by simp [hv]), if_neg ht]
    by_cases hm : member_size file = file.length
    · rw [if_pos hm]
      exact ⟨by simp [hv, hm], fun _ hne => absurd hm hne⟩
    · rw [if_neg hm]
      by_cases hc : member_size file < file.length ∧
          File_header_size ≤ member_size file ∧
          verify_header ((file.drop (file.length - member_size file)).take
            File_header_size) = true
      · rw [if_pos hc]
        refine ⟨by simp [hm], fun _ _ => ⟨by simp, by simp [hc], by simp [hc]⟩⟩
      · rw [if_neg hc]
        refine ⟨by simp [hm], fun _ _ => ⟨by simp, by simp [hc], by simp [hc]⟩⟩
  · rw [if_pos (by simp [hv])]
    refine ⟨by simp [hv], fun hv2 _ => absurd hv2 hv⟩

theorem verify_single_member_characterization_witness :
    36 ≤ fileC.length ∧
    (verify_single_member fileC = .ok ↔
      (verify_header (fileC.take File_header_size) = true ∧
       member_size fileC = fileC.length)) :=
  ⟨by decide, (verify_single_member_characterization fileC (by decide)).1⟩

-- The split scanner flattens to the input: the pending range
-- `[lastB, …)` is distributed over boundary writes.

theorem splitScan_flatten (input : List (Fin 256)) :
    ∀ fuel p lastB outs, lastB ≤ p →
      (splitScan input fuel p lastB outs).flatten =
        outs.flatten ++ input.drop lastB := by
  intro fuel
  induction fuel with
  | zero =>
    intro p lastB outs _
    simp [splitScan]
  | succ n ih =>
    intro p lastB outs hle
    unfold splitScan
    by_cases hb : boundaryAt input lastB p
    · rw [if_pos hb, ih (p + 1) p _ (Nat.le_succ p)]
      rw [List.flatten_append]
      simp only [List.flatten_cons, List.flatten_nil, List.append_nil]
      rw [List.append_assoc]
      congr 1
      have hdd : input.drop p = (input.drop lastB).drop (p - lastB) := by
        rw [List.drop_drop]
        congr 1
        omega
      rw [hdd, List.take_append_drop]
    · rw [if_neg hb]
      exact ih (p + 1) lastB _ (le_trans hle (Nat.le_succ p))

/-- C3: the byte-for-byte concatenation of the output files produced by
a successful split equals the input file. -/
theorem split_concat (input : List (Fin 256)) :
    (do_split_file input).flatten = input := by
  unfold do_split_file
  rw [splitScan_flatten input _ 1 0 [] (by omega)]
  simp

-- The repair inner loop: on failure, one more increment lands the
-- written byte exactly 256 increments past the original, i.e. back at
-- the original value; on success, the winning byte is one of the 255
-- proper increments.

theorem repair_trials_none (oracle : List (Fin 256) → Bool) (pos : Nat) :
    ∀ i img byte img2 b2,
      repair_trials oracle pos img byte i = (none, img2, b2) →
      img2.set pos (b2 + 1) = img.set pos (byte + ((i + 1 : Nat) : Fin 256)) := by
  intro i
  induction i with
  | zero =>
    intro img byte img2 b2 h
    simp only [repair_trials, Prod.mk.injEq, true_and] at h
    obtain ⟨h1, h2⟩ := h
    subst h1; subst h2
    norm_num
  | succ n ih =>
    intro img byte img2 b2 h
    simp only [repair_trials] at h
    by_cases ho : oracle (img.set pos (byte + 1)) = true
    · simp [ho] at h
    · simp only [ho, if_false, Bool.false_eq_true] at h
      have h2 := ih _ _ _ _ h
      rw [List.set_set] at h2
      rw [h2]
      congr 1
      push_cast
      ring

theorem repair_trials_some (oracle : List (Fin 256) → Bool) (pos : Nat) :
    ∀ i img byte out img2 b2,
      repair_trials oracle pos img byte i = (some out, img2, b2) →
      ∃ k : Nat, 1 ≤ k ∧ k ≤ i ∧
        out = img.set pos (byte + (k : Fin 256)) ∧ oracle out = true := by
  intro i
  induction i with
  | zero =>
    intro img byte out img2 b2 h
    simp [repair_trials] at h
  | succ n ih =>
    intro img byte out img2 b2 h
    simp only [repair_trials] at h
    by_cases ho : oracle (img.set pos (byte + 1)) = true
    · simp only [ho, if_true, Prod.mk.injEq, Option.some.injEq] at h
      refine ⟨1, le_refl 1, by omega, ?_, ?_⟩
      · rw [← h.1]
        norm_num
      · rw [← h.1]; exact ho
    · simp only [ho, if_false, Bool.false_eq_true] at h
      obtain ⟨k, hk1, hk2, hout, hor⟩ := ih _ _ _ _ _ h
      rw [List.set_set] at hout
      refine ⟨k + 1, by omega, by omega, ?_, hor⟩
      rw [hout]
      congr 1
      push_cast
      ring

theorem repair_at_pos_none (oracle : List (Fin 256) → Bool)
    (img : List (Fin 256)) (pos : Nat) (img2 : List (Fin 256))
    (hlen : pos < img.length)
    (h : repair_at_pos oracle img pos = (none, img2)) : img2 = img := by
  unfold repair_at_pos at h
  rcases htr : repair_trials oracle pos img (img.getD pos 0) 255 with ⟨res, img1, b1⟩
  rw [htr] at h
  cases res with
  | some o => simp at h
  | none =>
    simp only [Prod.mk.injEq, true_and] at h
    have h2 := repair_trials_none oracle pos 255 img (img.getD pos 0) img1 b1 htr
    have hc : ((255 + 1 : Nat) : Fin 256) = 0 := by decide
    rw [hc, add_zero, set_getD_self img pos 0 hlen] at h2
    rw [← h, h2]

theorem repair_at_pos_some (oracle : List (Fin 256) → Bool)
    (img : List (Fin 256)) (pos : Nat) (out out2 : List (Fin 256))
    (h : repair_at_pos oracle img pos = (some out, out2)) :
    out2 = out ∧ ∃ k : Nat, 1 ≤ k ∧ k ≤ 255 ∧
      out = img.set pos (img.getD pos 0 + (k : Fin 256)) ∧ oracle out = true := by
  unfold repair_at_pos at h
  rcases htr : repair_trials oracle pos img (img.getD pos 0) 255 with ⟨res, img1, b1⟩
  rw [htr] at h
  cases res with
  | none => simp at h
  | some o =>
    simp only [Prod.mk.injEq, Option.some.injEq] at h
    obtain ⟨h1, h2⟩ := h
    subst h1
    obtain ⟨k, hk1, hk2, hout, hor⟩ := repair_trials_some oracle pos 255 img _ _ _ _ htr
    exact ⟨h2.symm, k, hk1, hk2, hout, hor⟩

theorem repair_search_spec (oracle : List (Fin 256) → Bool) :
    ∀ count img pos p out, pos < img.length →
      repair_search oracle count img pos = some (p, out) →
      pos - count ≤ p ∧ p ≤ pos ∧ p < img.length ∧
      ∃ k : Nat, 1 ≤ k ∧ k ≤ 255 ∧
        out = img.set p (img.getD p 0 + (k : Fin 256)) ∧ oracle out = true := by
  intro count
  induction count with
  | zero =>
    intro img pos p out hlen h
    unfold repair_search at h
    rcases hap : repair_at_pos oracle img pos with ⟨res, img2⟩
    rw [hap] at h
    cases res with
    | some o =>
      simp only [Option.some.injEq, Prod.mk.injEq] at h
      obtain ⟨h1, h2⟩ := h
      subst h1
      subst h2
      obtain ⟨-, spec⟩ := repair_at_pos_some oracle img pos o img2 hap
      exact ⟨by omega, le_refl _, hlen, spec⟩
    | none => simp at h
  | succ c ih =>
    intro img pos p out hlen h
    unfold repair_search at h
    rcases hap : repair_at_pos oracle img pos with ⟨res, img2⟩
    rw [hap] at h
    cases res with
    | some o =>
      simp only [Option.some.injEq, Prod.mk.injEq] at h
      obtain ⟨h1, h2⟩ := h
      subst h1
      subst h2
      obtain ⟨-, spec⟩ := repair_at_pos_some oracle img pos o img2 hap
      exact ⟨by omega, le_refl _, hlen, spec⟩
    | none =>
      have himg : img2 = img := repair_at_pos_none oracle img pos img2 hlen hap
      subst himg
      have hlen2 : pos - 1 < img2.length := by omega
      obtain ⟨hb1, hb2, hb3, spec⟩ := ih img2 (pos - 1) p out hlen2 h
      exact ⟨by omega, by omega, hb3, spec⟩

/-- C1: whenever repair exits 0 (`repair_file` returns `some`), the
output image differs from the input image in exactly one byte, whose
offset lies in `[max(header size, f - 1000), f]` for `f` the clamped
failure position. -/
theorem repair_one_byte (oracle : List (Fin 256) → Bool) (img : List (Fin 256))
    (failure_pos pos : Nat) (out : List (Fin 256))
    (h : repair_file oracle img failure_pos = some (pos, out)) :
    max File_header_size
        ((if img.length - 8 ≤ failure_pos then img.length - 8 - 1 else failure_pos)
          - 1000) ≤ pos ∧
    pos ≤ (if img.length - 8 ≤ failure_pos then img.length - 8 - 1 else failure_pos) ∧
    pos < img.length ∧
    out.getD pos 0 ≠ img.getD pos 0 ∧
    ∀ q, q ≠ pos → out.getD q 0 = img.getD q 0 := by
  unfold repair_file at h
  by_cases h36 : img.length < 36
  · rw [if_pos h36] at h
    simp at h
  · rw [if_neg h36] at h
    simp only at h
    set f := if img.length - 8 ≤ failure_pos then img.length - 8 - 1 else failure_pos
      with hf
    by_cases hhd : f < File_header_size
    · rw [if_pos hhd] at h
      simp at h
    · rw [if_neg hhd] at h
      have hflen : f < img.length := by
        rcases le_or_lt (img.length - 8) failure_pos with hc | hc
        · rw [hf, if_pos hc]; omega
        · rw [hf, if_neg (not_le.mpr hc)]; omega
      obtain ⟨hb1, hb2, hb3, k, hk1, hk2, hout, -⟩ :=
        repair_search_spec oracle _ img f pos out hflen h
      have hmaxle : max File_header_size (f - 1000) ≤ f := by
        have h6 : File_header_size ≤ f := not_lt.mp hhd
        omega
      refine ⟨by omega, hb2, hb3, ?_, ?_⟩
      · rw [hout, getD_set_self img pos _ 0 hb3]
        intro heq
        have hk0 : (k : Fin 256) = 0 := by
          have := add_right_eq_self.mp heq
          exact this
        have hval := congrArg Fin.val hk0
        rw [Fin.val_natCast] at hval
        simp only [Fin.val_zero] at hval
        omega
      · intro q hq
        rw [hout, getD_set_ne img pos q _ 0 (fun hpq => hq hpq.symm)]

theorem repair_one_byte_witness :
    repair_file oracleC imgC 6 = some (6, imgC.set 6 5) ∧
    (max File_header_size
        ((if imgC.length - 8 ≤ 6 then imgC.length - 8 - 1 else 6) - 1000) ≤ 6 ∧
     6 ≤ (if imgC.length - 8 ≤ 6 then imgC.length - 8 - 1 else 6) ∧
     6 < imgC.length ∧
     (imgC.set 6 5).getD 6 0 ≠ imgC.getD 6 0 ∧
     ∀ q, q ≠ 6 → (imgC.set 6 5).getD q 0 = imgC.getD q 0) :=
  ⟨by decide, repair_one_byte oracleC imgC 6 6 (imgC.set 6 5) (by decide)⟩

/-- C7: at a position where none of the 255 trials succeeds, the 255
increments modulo 256 followed by the one additional increment leave the
image unchanged — the byte is restored to exactly its original value
before the search moves to the previous position (256 increments of an
8-bit byte are the identity). -/
theorem repair_restores_byte (oracle : List (Fin 256) → Bool)
    (img : List (Fin 256)) (pos : Nat) (img2 : List (Fin 256))
    (hlen : pos < img.length)
    (h : repair_at_pos oracle img pos = (none, img2)) :
    img2 = img ∧ img2.getD pos 0 = img.getD pos 0 := by
  have h2 := repair_at_pos_none oracle img pos img2 hlen h
  exact ⟨h2, by rw [h2]⟩

set_option maxRecDepth 40000 in
theorem repair_restores_byte_witness :
    6 < imgC.length ∧ repair_at_pos oracleF imgC 6 = (none, imgC) ∧
    (imgC = imgC ∧ imgC.getD 6 0 = imgC.getD 6 0) :=
  ⟨by decide, by decide, repair_restores_byte oracleF imgC 6 imgC (by decide) (by decide)⟩

-- Step equations for the scanner.

theorem scanAux_stop (dis : Nat → Bool) (rd fuel i bpos eq : Nat)
    (h : ¬ i < rd) :
    scanAux dis rd (fuel + 1) i bpos eq = ([], bpos) := by
  unfold scanAux
  rw [if_neg h]

theorem scanAux_seek (dis : Nat → Bool) (rd fuel i bpos eq : Nat)
    (h : i < rd) (hb : bpos = 0) :
    scanAux dis rd (fuel + 1) i bpos eq =
      scanAux dis rd fuel (i + 1) (if dis i then i else 0) eq := by
  conv_lhs => unfold scanAux
  rw [if_pos h, if_pos hb]

theorem scanAux_indis (dis : Nat → Bool) (rd fuel i bpos eq : Nat)
    (h : i < rd) (hb : ¬ bpos = 0) (hd : dis i = true) :
    scanAux dis rd (fuel + 1) i bpos eq =
      scanAux dis rd fuel (i + 1) bpos 0 := by
  conv_lhs => unfold scanAux
  rw [if_pos h, if_neg hb, if_pos hd]

theorem scanAux_close (dis : Nat → Bool) (rd fuel i bpos eq : Nat)
    (h : i < rd) (hb : ¬ bpos = 0) (hd : ¬ dis i = true) (he : 2 ≤ eq + 1) :
    scanAux dis rd (fuel + 1) i bpos eq =
      (Block.mk (bpos : Int) ((i : Int) - ((eq : Int) + 1 - 1) - (bpos : Int)) ::
          (scanAux dis rd fuel (i + 2) 0 0).1,
        (scanAux dis rd fuel (i + 2) 0 0).2) := by
  conv_lhs => unfold scanAux
  rw [if_pos h, if_neg hb, if_neg hd, if_pos he]

theorem scanAux_agree (dis : Nat → Bool) (rd fuel i bpos eq : Nat)
    (h : i < rd) (hb : ¬ bpos = 0) (hd : ¬ dis i = true) (he : ¬ 2 ≤ eq + 1) :
    scanAux dis rd (fuel + 1) i bpos eq =
      scanAux dis rd fuel (i + 1) bpos (eq + 1) := by
  conv_lhs => unfold scanAux
  rw [if_pos h, if_neg hb, if_neg hd, if_neg he]

theorem scanFlush_of_scanAux_eq (dis : Nat → Bool) (rd f1 i1 b1 e1 f2 i2 b2 e2 : Nat)
    (h : scanAux dis rd f1 i1 b1 e1 = scanAux dis rd f2 i2 b2 e2) :
    scanFlush dis rd f1 i1 b1 e1 = scanFlush dis rd f2 i2 b2 e2 := by
  unfold scanFlush
  rw [h]

theorem scanFlush_terminal (dis : Nat → Bool) (rd fuel i bpos eq : Nat)
    (h : scanAux dis rd fuel i bpos eq = ([], bpos)) :
    scanFlush dis rd fuel i bpos eq =
      if 0 < bpos then [Block.mk (bpos : Int) ((rd : Int) - (bpos : Int))] else [] := by
  unfold scanFlush
  rw [h]
  show [] ++ (if 0 < bpos then [Block.mk (bpos : Int) ((rd : Int) - (bpos : Int))]
    else []) = _
  rw [List.nil_append]

theorem scanFlush_close (dis : Nat → Bool) (rd fuel i bpos eq : Nat)
    (h : i < rd) (hb : ¬ bpos = 0) (hd : ¬ dis i = true) (he : 2 ≤ eq + 1) :
    scanFlush dis rd (fuel + 1) i bpos eq =
      Block.mk (bpos : Int) ((i : Int) - ((eq : Int) + 1 - 1) - (bpos : Int)) ::
        scanFlush dis rd fuel (i + 2) 0 0 := by
  unfold scanFlush
  rw [scanAux_close dis rd fuel i bpos eq h hb hd he]
  show (Block.mk (bpos : Int) ((i : Int) - ((eq : Int) + 1 - 1) - (bpos : Int)) ::
      (scanAux dis rd fuel (i + 2) 0 0).1) ++
      (if 0 < (scanAux dis rd fuel (i + 2) 0 0).2 then
        [Block.mk ((scanAux dis rd fuel (i + 2) 0 0).2 : Int)
          ((rd : Int) - ((scanAux dis rd fuel (i + 2) 0 0).2 : Int))]
      else []) = _
  rw [List.cons_append]

-- The invariant carried through the scanner: every recorded block is
-- nonempty and inside the stream; consecutive blocks are separated by
-- two agreeing positions; an open block surfaces as the head of
-- whatever the rest of the run produces.

theorem terminal_list_inv (dis : Nat → Bool) (rd i bpos : Nat)
    (hbrd : 0 < bpos → bpos < rd) :
    (∀ b ∈ (if 0 < bpos then [Block.mk (bpos : Int) ((rd : Int) - (bpos : Int))]
        else ([] : List Block)),
      0 ≤ b.pos ∧ 1 ≤ b.size ∧ b.end' ≤ (rd : Int)) ∧
    List.Chain' (scanGap dis)
      (if 0 < bpos then [Block.mk (bpos : Int) ((rd : Int) - (bpos : Int))]
        else ([] : List Block)) ∧
    (0 < bpos → ∃ s tl,
      (if 0 < bpos then [Block.mk (bpos : Int) ((rd : Int) - (bpos : Int))]
        else ([] : List Block)) = Block.mk (bpos : Int) s :: tl) ∧
    (bpos = 0 → ∀ b,
      (if 0 < bpos then [Block.mk (bpos : Int) ((rd : Int) - (bpos : Int))]
        else ([] : List Block)).head? = some b → (i : Int) ≤ b.pos) := by
  by_cases hbp : 0 < bpos
  · have hlt := hbrd hbp
    rw [if_pos hbp]
    refine ⟨?_, List.chain'_singleton _, fun _ => ⟨_, [], rfl⟩, fun h0 => by omega⟩
    intro b hb
    simp only [List.mem_singleton] at hb
    subst hb
    dsimp only [Block.end']
    refine ⟨by omega, by omega, by omega⟩
  · rw [if_neg hbp]
    refine ⟨by simp, List.chain'_nil, fun h => absurd h hbp, ?_⟩
    intro _ b hb
    simp at hb

theorem scanAux_invariant (dis : Nat → Bool) (rd : Nat) :
    ∀ fuel i bpos eq,
      ((bpos = 0 ∧ eq = 0) ∨
        (0 < bpos ∧ bpos + 1 + eq ≤ i ∧ eq ≤ 1 ∧ bpos < rd ∧
          (eq = 1 → dis (i - 1) = false))) →
      (∀ b ∈ scanFlush dis rd fuel i bpos eq,
          0 ≤ b.pos ∧ 1 ≤ b.size ∧ b.end' ≤ (rd : Int)) ∧
      List.Chain' (scanGap dis) (scanFlush dis rd fuel i bpos eq) ∧
      (0 < bpos → ∃ s tl, scanFlush dis rd fuel i bpos eq =
        Block.mk (bpos : Int) s :: tl) ∧
      (bpos = 0 → ∀ b, (scanFlush dis rd fuel i bpos eq).head? = some b →
        (i : Int) ≤ b.pos) := by
  intro fuel
  induction fuel with
  | zero =>
    intro i bpos eq hst
    rw [scanFlush_terminal dis rd 0 i bpos eq rfl]
    apply terminal_list_inv
    rcases hst with ⟨h0, -⟩ | ⟨-, -, -, hbrd, -⟩
    · omega
    · exact fun _ => hbrd
  | succ fuel ih =>
    intro i bpos eq hst
    by_cases hird : i < rd
    · by_cases hbp0 : bpos = 0
      · -- seeking phase (first while loop, lines 289-295)
        have heq0 : eq = 0 := by
          rcases hst with ⟨-, h⟩ | ⟨h, -, -, -, -⟩
          · exact h
          · omega
        subst heq0
        rw [scanFlush_of_scanAux_eq dis rd (fuel + 1) i bpos 0 fuel (i + 1)
          (if dis i then i else 0) 0 (scanAux_seek dis rd fuel i bpos 0 hird hbp0)]
        by_cases hdis : dis i = true
        · rw [if_pos hdis]
          by_cases hi0 : i = 0
          · subst hi0
            obtain ⟨A, B, C, D⟩ := ih (0 + 1) 0 0 (Or.inl ⟨rfl, rfl⟩)
            refine ⟨A, B, fun hbp => absurd hbp (by omega), ?_⟩
            intro _ b hb
            have := D rfl b hb
            omega
          · have hipos : 0 < i := Nat.pos_of_ne_zero hi0
            obtain ⟨A, B, C, D⟩ := ih (i + 1) i 0
              (Or.inr ⟨hipos, by omega, by omega, hird, fun h => by omega⟩)
            refine ⟨A, B, fun hbp => absurd hbp (by omega), ?_⟩
            intro _ b hb
            obtain ⟨s, tl, hft⟩ := C hipos
            rw [hft] at hb
            simp only [List.head?_cons, Option.some.injEq] at hb
            subst hb
            simp
        · rw [if_neg hdis]
          obtain ⟨A, B, C, D⟩ := ih (i + 1) 0 0 (Or.inl ⟨rfl, rfl⟩)
          refine ⟨A, B, fun hbp => absurd hbp (by omega), ?_⟩
          intro _ b hb
          have := D rfl b hb
          omega
      · -- inside an open block (second while loop, lines 296-310)
        rcases hst with ⟨h0, -⟩ | ⟨hb0, hble, hele, hbrd, heqd⟩
        · exact absurd h0 hbp0
        by_cases hdis : dis i = true
        · rw [scanFlush_of_scanAux_eq dis rd (fuel + 1) i bpos eq fuel (i + 1) bpos 0
            (scanAux_indis dis rd fuel i bpos eq hird hbp0 hdis)]
          obtain ⟨A, B, C, D⟩ := ih (i + 1) bpos 0
            (Or.inr ⟨hb0, by omega, by omega, hbrd, fun h => by omega⟩)
          exact ⟨A, B, C, fun h0 => absurd h0 hbp0⟩
        · have hdisf : dis i = false := by revert hdis; cases dis i <;> simp
          by_cases heq1 : eq = 1
          · -- two agreeing bytes: the block closes (lines 302-308)
            subst heq1
            rw [scanFlush_close dis rd fuel i bpos 1 hird hbp0 hdis (by omega)]
            obtain ⟨A, B, C, D⟩ := ih (i + 2) 0 0 (Or.inl ⟨rfl, rfl⟩)
            refine ⟨?_, ?_, fun _ => ⟨_, _, rfl⟩, fun h0 => absurd h0 hbp0⟩
            · intro b hb
              rcases List.mem_cons.mp hb with hb1 | hb2
              · subst hb1
                dsimp only [Block.end']
                refine ⟨by omega, by omega, by omega⟩
              · exact A b hb2
            · rcases hfl : scanFlush dis rd fuel (i + 2) 0 0 with _ | ⟨b', tl'⟩
              · simp
              · rw [List.chain'_cons]
                constructor
                · have hb' := D rfl b' (by rw [hfl]; rfl)
                  refine ⟨i - 1, ?_, ?_, heqd rfl, ?_⟩
                  · dsimp only [Block.end']
                    omega
                  · omega
                  · have h11 : i - 1 + 1 = i := by omega
                    rw [h11]
                    exact hdisf
                · rw [hfl] at B
                  exact B
          · -- first agreeing byte: count it (line 298, no close)
            have heq0 : eq = 0 := by omega
            subst heq0
            rw [scanFlush_of_scanAux_eq dis rd (fuel + 1) i bpos 0 fuel (i + 1) bpos 1
              (scanAux_agree dis rd fuel i bpos 0 hird hbp0 hdis (by omega))]
            obtain ⟨A, B, C, D⟩ := ih (i + 1) bpos 1
              (Or.inr ⟨hb0, by omega, by omega, hbrd, fun _ => by
                have h11 : i + 1 - 1 = i := by omega
                rw [h11]
                exact hdisf⟩)
            exact ⟨A, B, C, fun h0 => absurd h0 hbp0⟩
    · rw [scanFlush_terminal dis rd (fuel + 1) i bpos eq
        (scanAux_stop dis rd fuel i bpos eq hird)]
      apply terminal_list_inv
      rcases hst with ⟨h0, -⟩ | ⟨-, -, -, hbrd, -⟩
      · omega
      · exact fun _ => hbrd

theorem copy_and_diff_file_eq_scanFlush (src0 : List (Fin 256))
    (rest : List (List (Fin 256))) :
    copy_and_diff_file src0 rest =
      scanFlush (diffAt src0 rest) src0.length src0.length 0 0 0 := by
  simp only [copy_and_diff_file, scanFlush]
  by_cases hbp : 0 < (scanAux (diffAt src0 rest) src0.length src0.length 0 0 0).2
  · rw [if_pos hbp, if_pos hbp]
  · rw [if_neg hbp, if_neg hbp, List.append_nil]

theorem chain_strengthen (dis : Nat → Bool) :
    ∀ l : List Block, (∀ b ∈ l, 1 ≤ b.size) → List.Chain' (scanGap dis) l →
      List.Chain' (fun a b => a.pos < b.pos ∧ a.end' ≤ b.pos ∧ scanGap dis a b) l := by
  intro l
  induction l with
  | nil =>
    intro _ _
    exact List.chain'_nil
  | cons a l ih =>
    intro hsz hch
    cases l with
    | nil => simp
    | cons b tl =>
      rw [List.chain'_cons] at hch ⊢
      obtain ⟨hg, hch2⟩ := hch
      refine ⟨⟨?_, ?_, hg⟩, ih (fun x hx => hsz x (List.mem_cons_of_mem a hx)) hch2⟩
      · obtain ⟨p, hp1, hp2, -, -⟩ := hg
        have hsa : 1 ≤ a.size := hsz a (List.mem_cons_self a _)
        dsimp only [Block.end'] at hp1
        omega
      · obtain ⟨p, hp1, hp2, -, -⟩ := hg
        dsimp only [Block.end'] at hp1 ⊢
        omega

theorem chain_blocks_pairwise :
    ∀ l : List Block, (∀ b ∈ l, 1 ≤ b.size) →
      List.Chain' (fun a b => a.pos < b.pos ∧ a.end' ≤ b.pos) l →
      List.Pairwise (fun a b => a.pos < b.pos ∧ a.end' ≤ b.pos) l := by
  intro l
  induction l with
  | nil =>
    intro _ _
    exact List.Pairwise.nil
  | cons a l ih =>
    intro hsz hch
    rcases l with _ | ⟨c, l2⟩
    · simp
    · rw [List.chain'_cons] at hch
      obtain ⟨hac, hch2⟩ := hch
      have hpl := ih (fun x hx => hsz x (List.mem_cons_of_mem a hx)) hch2
      rw [List.pairwise_cons]
      refine ⟨?_, hpl⟩
      intro b hb
      rcases List.mem_cons.mp hb with rfl | hb2
      · exact hac
      · have hcb := (List.pairwise_cons.mp hpl).1 b hb2
        have hc1 : 1 ≤ c.size := hsz c (by simp)
        obtain ⟨ha1, ha2⟩ := hac
        obtain ⟨hb1, hb3⟩ := hcb
        dsimp only [Block.end'] at ha2 hb3 ⊢
        exact ⟨by omega, by omega⟩

/-- C5: over any run of the diff scanner, the resulting block vector is
sorted by `pos` and pairwise non-overlapping (each earlier block ends at
or before each later one starts), every block is nonempty and lies
inside the stream, and between the end of each block and the start of
the next there are at least two consecutive positions at which all
sources agree with source 0 (`diffAt … = false`). -/
theorem copy_and_diff_blocks_invariant (src0 : List (Fin 256))
    (rest : List (List (Fin 256))) :
    (∀ b ∈ copy_and_diff_file src0 rest,
      0 ≤ b.pos ∧ 1 ≤ b.size ∧ b.end' ≤ (src0.length : Int)) ∧
    List.Chain' (fun a b => a.pos < b.pos ∧ a.end' ≤ b.pos ∧
      scanGap (diffAt src0 rest) a b) (copy_and_diff_file src0 rest) ∧
    List.Pairwise (fun a b => a.pos < b.pos ∧ a.end' ≤ b.pos)
      (copy_and_diff_file src0 rest) := by
  have h := scanAux_invariant (diffAt src0 rest) src0.length src0.length
    0 0 0 (Or.inl ⟨rfl, rfl⟩)
  rw [copy_and_diff_file_eq_scanFlush]
  have hsz : ∀ b ∈ scanFlush (diffAt src0 rest) src0.length src0.length 0 0 0,
      1 ≤ b.size := fun b hb => (h.1 b hb).2.1
  have hch := chain_strengthen _ _ hsz h.2.1
  refine ⟨h.1, hch, ?_⟩
  exact chain_blocks_pairwise _ hsz (hch.imp fun a b hab => ⟨hab.1, hab.2.1⟩)

/-- C4 fails at position 0: `srcA`/`srcB` disagree at absolute position
0, the scanner is in its seeking phase there, yet the run produces no
block at all — in particular none with `pos = 0`.  `b.pos( 0 )` writes
the scanner's own not-in-block sentinel, so the block never opens. -/
theorem seek_zero_counterexample :
    diffAt srcA [srcB] 0 = true ∧ copy_and_diff_file srcA [srcB] = [] :=
  ⟨by decide, by decide⟩

/-- C4 (amended): in the seeking phase, every position `i ≥ 1` the
scanner examines at which some source disagrees with source 0 opens a
block whose `pos` equals `i`, and that block surfaces at the head of the
block list produced by the rest of the run (including the end-of-stream
flush); a disagreement at absolute position 0 opens no block, because
position 0 coincides with the scanner's not-in-block sentinel. -/
theorem seek_opens_block (dis : Nat → Bool) (rd fuel i : Nat)
    (hird : i < rd) (hi1 : 1 ≤ i) (hdis : dis i = true) :
    ∃ s tl, scanFlush dis rd (fuel + 1) i 0 0 = Block.mk (i : Int) s :: tl := by
  rw [scanFlush_of_scanAux_eq dis rd (fuel + 1) i 0 0 fuel (i + 1)
    (if dis i then i else 0) 0 (scanAux_seek dis rd fuel i 0 0 hird rfl)]
  rw [if_pos hdis]
  exact (scanAux_invariant dis rd fuel (i + 1) i 0
    (Or.inr ⟨by omega, by omega, by omega, hird, fun h => by omega⟩)).2.2.1 (by omega)

theorem seek_opens_block_witness :
    ∃ s tl, scanFlush (diffAt srcC [srcD]) 4 4 1 0 0 = Block.mk (1 : Int) s :: tl :=
  seek_opens_block (diffAt srcC [srcD]) 4 3 1 (by decide) (by decide) (by decide)

-- The per-variation copy: `copyBlock` only rewrites its block's range,
-- and `applyVariation` consumes one base-n digit per block.

theorem copyBlock_length (src out : List (Fin 256)) (pos size : Nat) :
    (copyBlock src out pos size).length = out.length := by
  unfold copyBlock
  rw [List.length_map, List.length_range]

theorem copyBlock_getD (src out : List (Fin 256)) (pos size q : Nat) :
    (copyBlock src out pos size).getD q 0 =
      if q < out.length ∧ pos ≤ q ∧ q < pos + size then src.getD q 0
      else out.getD q 0 := by
  by_cases hq : q < out.length
  · unfold copyBlock
    rw [List.getD_eq_getElem?_getD, List.getElem?_map, List.getElem?_range hq]
    simp only [Option.map_some', Option.getD_some]
    by_cases hin : pos ≤ q ∧ q < pos + size
    · rw [if_pos hin, if_pos ⟨hq, hin⟩]
    · rw [if_neg hin, if_neg (by tauto)]
  · rw [if_neg (by tauto)]
    rw [List.getD_eq_getElem?_getD, List.getD_eq_getElem?_getD,
      List.getElem?_eq_none (show (copyBlock src out pos size).length ≤ q by
        rw [copyBlock_length]; omega),
      List.getElem?_eq_none (show out.length ≤ q by omega)]

theorem applyVariation_length (ins : List (List (Fin 256))) :
    ∀ (bs : List Block) (tmp : Nat) (out : List (Fin 256)),
      (applyVariation ins bs tmp out).length = out.length := by
  intro bs
  induction bs with
  | nil =>
    intro tmp out
    rfl
  | cons b bs ih =>
    intro tmp out
    show (applyVariation ins bs (tmp / ins.length)
      (copyBlock (ins.getD (tmp % ins.length) []) out b.pos.toNat b.size.toNat)).length
        = out.length
    rw [ih, copyBlock_length]

theorem applyVariation_getD_outside (ins : List (List (Fin 256))) :
    ∀ (bs : List Block) (tmp : Nat) (out : List (Fin 256)) (q : Nat),
      (∀ b ∈ bs, 0 ≤ b.pos) →
      (∀ b ∈ bs, ¬(b.pos ≤ (q : Int) ∧ (q : Int) < b.end')) →
      (applyVariation ins bs tmp out).getD q 0 = out.getD q 0 := by
  intro bs
  induction bs with
  | nil =>
    intro tmp out q _ _
    rfl
  | cons b bs ih =>
    intro tmp out q hpos hout
    show (applyVariation ins bs (tmp / ins.length)
      (copyBlock (ins.getD (tmp % ins.length) []) out b.pos.toNat b.size.toNat)).getD q 0
        = out.getD q 0
    rw [ih _ _ _ (fun x hx => hpos x (List.mem_cons_of_mem b hx))
      (fun x hx => hout x (List.mem_cons_of_mem b hx))]
    rw [copyBlock_getD]
    have hbp := hpos b (List.mem_cons_self b bs)
    have hno := hout b (List.mem_cons_self b bs)
    dsimp only [Block.end'] at hno
    rw [if_neg (by omega)]

theorem applyVariation_getD (ins : List (List (Fin 256))) :
    ∀ (bs : List Block) (tmp : Nat) (out : List (Fin 256)) (i : Nat)
      (hi : i < bs.length) (q : Nat),
      (∀ b ∈ bs, 0 ≤ b.pos) →
      List.Pairwise (fun a b => a.end' ≤ b.pos ∨ b.end' ≤ a.pos) bs →
      q < out.length →
      (bs.get ⟨i, hi⟩).pos ≤ (q : Int) → (q : Int) < (bs.get ⟨i, hi⟩).end' →
      (applyVariation ins bs tmp out).getD q 0 =
        (ins.getD ((tmp / ins.length ^ i) % ins.length) []).getD q 0 := by
  intro bs
  induction bs with
  | nil =>
    intro tmp out i hi
    exact absurd hi (by simp)
  | cons b bs ih =>
    intro tmp out i hi q hpos hdisj hq hq1 hq2
    rw [List.pairwise_cons] at hdisj
    obtain ⟨hdb, hdtail⟩ := hdisj
    cases i with
    | zero =>
      have hq1' : b.pos ≤ (q : Int) := hq1
      have hq2' : (q : Int) < b.end' := hq2
      dsimp only [Block.end'] at hq2'
      have hbp := hpos b (List.mem_cons_self b bs)
      have houtside : ∀ x ∈ bs, ¬(x.pos ≤ (q : Int) ∧ (q : Int) < x.end') := by
        intro x hx
        have hd := hdb x hx
        dsimp only [Block.end'] at hd ⊢
        omega
      show (applyVariation ins bs (tmp / ins.length)
        (copyBlock (ins.getD (tmp % ins.length) []) out b.pos.toNat b.size.toNat)).getD q 0
          = _
      rw [applyVariation_getD_outside ins bs _ _ q
        (fun x hx => hpos x (List.mem_cons_of_mem b hx)) houtside]
      rw [copyBlock_getD, if_pos (by refine ⟨hq, ?_, ?_⟩ <;> omega)]
      norm_num
    | succ i =>
      have hi' : i < bs.length := by
        simp only [List.length_cons] at hi
        omega
      have hq1' : (bs.get ⟨i, hi'⟩).pos ≤ (q : Int) := hq1
      have hq2' : (q : Int) < (bs.get ⟨i, hi'⟩).end' := hq2
      show (applyVariation ins bs (tmp / ins.length)
        (copyBlock (ins.getD (tmp % ins.length) []) out b.pos.toNat b.size.toNat)).getD q 0
          = _
      rw [ih (tmp / ins.length) _ i hi' q
        (fun x hx => hpos x (List.mem_cons_of_mem b hx)) hdtail
        (by rw [copyBlock_length]; exact hq) hq1' hq2']
      have hdd : tmp / ins.length / ins.length ^ i = tmp / ins.length ^ (i + 1) := by
        rw [Nat.div_div_eq_div_mul, ← pow_succ']
      rw [hdd]

theorem mergeLoop_var_range (oracle : List (Fin 256) → Bool)
    (ins : List (List (Fin 256))) (base : Nat) :
    ∀ (fuel : Nat) (blocks : List Block) (out : List (Fin 256)) (var v : Nat)
      (img : List (Fin 256)),
      mergeLoop oracle ins base fuel blocks out var = some (v, img) →
      var ≤ v ∧ v < var + fuel := by
  intro fuel
  induction fuel with
  | zero =>
    intro blocks out var v img h
    simp [mergeLoop] at h
  | succ fuel ih =>
    intro blocks out var v img h
    simp only [mergeLoop] at h
    by_cases ho : oracle (applyVariation ins blocks var out) = true
    · simp only [ho, if_true, Option.some.injEq, Prod.mk.injEq] at h
      obtain ⟨h1, -⟩ := h
      omega
    · simp only [ho, if_false, Bool.false_eq_true] at h
      have := ih _ _ _ _ _ h
      omega

/-- C2: in the merge search with `n = ins.length` inputs, whenever the
variation loop started at `var = 1` with `variations = base * shifts - 2`
iterations (`base = ipow(n, |blocks|)`) succeeds, the successful `var`
lies in `[1, base * shifts - 2]`; and each iteration's copy applies, for
every block `i` of the current block vector, block `i` from input number
`d_i` at block `i`'s position, where `d_i = (var / n^i) % n` is the
`i`-th digit of `var` written in base `n`, least-significant first. -/
theorem merge_variation_semantics (oracle : List (Fin 256) → Bool)
    (ins : List (List (Fin 256))) (blocks : List Block)
    (out img : List (Fin 256)) (shifts v : Nat)
    (_hn : 2 ≤ ins.length)
    (hrun : mergeLoop oracle ins (ipow ins.length blocks.length)
      (ipow ins.length blocks.length * shifts - 2) blocks out 1 = some (v, img)) :
    (1 ≤ v ∧ v ≤ ipow ins.length blocks.length * shifts - 2) ∧
    (∀ (bs : List Block) (var : Nat) (o : List (Fin 256)) (i : Nat)
      (hi : i < bs.length) (q : Nat),
      (∀ b ∈ bs, 0 ≤ b.pos) →
      List.Pairwise (fun a b => a.end' ≤ b.pos ∨ b.end' ≤ a.pos) bs →
      q < o.length →
      (bs.get ⟨i, hi⟩).pos ≤ (q : Int) → (q : Int) < (bs.get ⟨i, hi⟩).end' →
      (applyVariation ins bs var o).getD q 0 =
        (ins.getD ((var / ins.length ^ i) % ins.length) []).getD q 0) := by
  constructor
  · have := mergeLoop_var_range oracle ins (ipow ins.length blocks.length) _ _ _ _ _ _ hrun
    omega
  · intro bs var o i hi q h1 h2 h3 h4 h5
    exact applyVariation_getD ins bs var o i hi q h1 h2 h3 h4 h5

theorem merge_variation_semantics_witness :
    mergeLoop oracleM insM (ipow insM.length blocksM.length)
      (ipow insM.length blocksM.length * 1 - 2) blocksM [0, 0, 0, 0] 1 =
        some (1, [9, 0, 0, 0]) ∧
    (1 ≤ 1 ∧ 1 ≤ ipow insM.length blocksM.length * 1 - 2) ∧
    (applyVariation insM blocksM 1 [0, 0, 0, 0]).getD 0 0 =
      (insM.getD ((1 / insM.length ^ 0) % insM.length) []).getD 0 0 :=
  ⟨by decide,
    (merge_variation_semantics oracleM insM blocksM [0, 0, 0, 0] [9, 0, 0, 0] 1 1
      (by decide) (by decide)).1,
    (merge_variation_semantics oracleM insM blocksM [0, 0, 0, 0] [9, 0, 0, 0] 1 1
      (by decide) (by decide)).2 blocksM 1 [0, 0, 0, 0] 0 (by decide) 0
      (by decide) (by decide) (by decide) (by decide) (by decide)⟩

/-- C9: if the preliminary checks pass (equal sizes, minimum size,
single-member verification) and any one input passes trial decode
cleanly — in particular when all inputs are byte-identical and undamaged
— merge returns exit code 0 without creating the output file (the clean
check at lines 410-417 precedes `open_outstream` at line 419). -/
theorem merge_clean_input_early_exit (oracle : List (Fin 256) → Bool)
    (ins : List (List (Fin 256)))
    (hsz : ∀ f ∈ ins, f.length = (ins.getD 0 []).length)
    (h36 : 36 ≤ (ins.getD 0 []).length)
    (hver : ∀ f ∈ ins, verify_single_member f = .ok)
    (hdec : ∃ f ∈ ins, oracle f = true) :
    merge_files oracle ins = (0, false) := by
  unfold merge_files
  rw [if_neg ?hc1, if_neg ?hc2, if_neg ?hc3, if_pos ?hc4]
  case hc1 =>
    simp only [List.any_eq_true, decide_eq_true_eq, not_exists]
    intro f
    rw [not_and]
    intro hf
    exact fun hne => hne (hsz f hf)
  case hc2 => omega
  case hc3 =>
    simp only [List.any_eq_true, decide_eq_true_eq, not_exists]
    intro f
    rw [not_and]
    intro hf
    exact fun hne => hne (hver f hf)
  case hc4 =>
    rw [List.any_eq_true]
    exact hdec

theorem merge_clean_input_early_exit_witness :
    (∀ f ∈ ([fileC, fileC] : List (List (Fin 256))),
      f.length = (([fileC, fileC] : List (List (Fin 256))).getD 0 []).length) ∧
    36 ≤ (([fileC, fileC] : List (List (Fin 256))).getD 0 []).length ∧
    (∀ f ∈ ([fileC, fileC] : List (List (Fin 256))),
      verify_single_member f = .ok) ∧
    merge_files (fun _ => true) [fileC, fileC] = (0, false) :=
  ⟨by decide, by decide, by decide,
    merge_clean_input_early_exit (fun _ => true) [fileC, fileC]
      (by decide) (by decide) (by decide) ⟨fileC, by decide, rfl⟩⟩
